import Mathlib

/-!
Verification of the training pipeline of `rhasspyasr_pocketsphinx/train.py`.

Python strings are modelled as lists of characters (`Str`).  Every string
operation the source uses (`str.strip`, `re.split(r"[ \t]+", ...)`,
`str.split("(")[0]`, `" ".join(...)`, `str.startswith`, `print`) is given an
explicit executable model below, annotated with the source construct it
embeds.  File contents written by the pipeline are modelled as lists of
lines (the terminating newline characters `print` appends are left
implicit, so a line is the exact character sequence between newlines).
-/

/-- Python strings are modelled as lists of characters. -/
abbrev Str := List Char

/-- Characters the regex `[ \t]+` of `read_dict` treats as separators
(train.py line 238; the pattern is explicitly only space and tab, so a
non-breaking-space byte is not a separator). -/
def isSepChar (c : Char) : Bool := c == ' ' || c == '\t'

/-- Whitespace characters removed by `str.strip()` at both ends of a line
(train.py lines 96, 214, 232): the ASCII whitespace arising in the
line-oriented formats at hand. -/
def isWsChar (c : Char) : Bool := c == ' ' || c == '\t' || c == '\n' || c == '\r'

/-- Leading half of Python `str.strip()`: drop whitespace from the front. -/
def trimLeft (s : Str) : Str := s.dropWhile isWsChar

/-- Trailing half of Python `str.strip()`: drop whitespace from the end. -/
def trimRight : Str → Str
  | [] => []
  | c :: cs =>
    match trimRight cs with
    | [] => if isWsChar c then [] else [c]
    | r => c :: r

/-- Model of Python `str.strip()`. -/
def trim (s : Str) : Str := trimRight (trimLeft s)

/-- Accumulator worker for `tokenize`; `acc` holds the reversed current
token. -/
def tokenizeAux : Str → Str → List Str
  | [], acc => if acc = [] then [] else [acc.reverse]
  | c :: cs, acc =>
    if isSepChar c then
      if acc = [] then tokenizeAux cs [] else acc.reverse :: tokenizeAux cs []
    else tokenizeAux cs (c :: acc)

/-- Model of `re.split(r"[ \t]+", line)` as applied on a stripped line
(train.py line 238): the maximal runs of non-separator characters.  On a
stripped non-empty line the regex split produces exactly these tokens and
no empty strings. -/
def tokenize (s : Str) : List Str := tokenizeAux s []

/-- Model of `word.split("(")[0]` (train.py line 240): everything before
the first opening parenthesis (the whole token when it has none). -/
def baseWord (w : Str) : Str := w.takeWhile (fun c => c != '(')

/-- Model of `" ".join(tokens)` (train.py lines 119, 149) and of the single
space `print` inserts between consecutive arguments (lines 70-71, 122, 125,
150, 153). -/
def joinSp : List Str → Str
  | [] => []
  | [t] => t
  | t :: ts => t ++ ' ' :: joinSp ts

/-- The type `PronunciationsType` (train.py line 12): a word-keyed mapping
to the ordered list of pronunciation variants, each variant an ordered list
of phoneme symbols.  Python dicts are insertion-ordered, so the map is
modelled as an association list; a genuine dict has pairwise distinct
keys. -/
abbrev Pron := List (Str × List (List Str))

/-- Model of the membership test `word in word_dict` (train.py line 242). -/
def hasKey (wd : Pron) (w : Str) : Bool := wd.any (fun p => p.1 == w)

/-- Model of `pronunciations.get(word)` (train.py line 110) and of reading
`word_dict[word]`. -/
def lookupWord (wd : Pron) (w : Str) : Option (List (List Str)) :=
  (wd.find? (fun p => p.1 == w)).map (fun p => p.2)

/-- Model of train.py lines 242-245: append the new variant under `word`,
creating the entry when absent.  A Python dict keeps an updated entry at
its position and appends a fresh key at the end, which is exactly what this
does on an association list with distinct keys. -/
def addEntry (wd : Pron) (w : Str) (ps : List Str) : Pron :=
  if hasKey wd w then
    wd.map (fun p => if p.1 == w then (p.1, p.2 ++ [ps]) else p)
  else wd ++ [(w, [ps])]

/-- One iteration of the `read_dict` loop (train.py lines 231-247): strip
the line, skip it when blank, split it on runs of space/tab into the head
token and the phoneme tokens, and key the appended variant under everything
before the first `(` of the head token.  The `except` branch of the source
(lines 246-247) skips a line whose body raises; for string lines the body
is total, and the unreachable empty-token-list case is mapped to the same
skip. -/
def readDictStep (wd : Pron) (rawLine : Str) : Pron :=
  let line := trim rawLine
  if line = [] then wd
  else
    match tokenize line with
    | [] => wd
    | w :: ps => addEntry wd (baseWord w) ps

/-- Model of `read_dict` (train.py lines 223-249) with an explicit initial
map (the source's `word_dict or {}`). -/
def read_dict (lines : List Str) (wd : Pron) : Pron :=
  lines.foldl readDictStep wd

/-- Total number of parsed pronunciation entries (variant lines) held in a
map. -/
def entryCount (wd : Pron) : Nat := (wd.map (fun p => p.2.length)).sum

/-- Decimal digit character `'0'..'9'` for a digit value; `48` is the code
of `'0'`. -/
def digitChar (n : Nat) : Char := Char.ofNat (48 + n % 10)

/-- Fuel-driven worker for `decRep`; the fuel only bounds the recursion
depth and `decRep` always supplies enough of it. -/
def decRepAux : Nat → Nat → Str
  | 0, _ => []
  | fuel + 1, n =>
    if n < 10 then [digitChar n] else decRepAux fuel (n / 10) ++ [digitChar (n % 10)]

/-- Decimal representation of a natural number; models Python `str(n)` as
used in the f-string `f"{word}({i+1})"` (train.py line 125) and in
`print("\t", count)` (line 71). -/
def decRep (n : Nat) : Str := decRepAux (n + 1) n

/-- Head token the dictionary writer emits for the i-th variant (train.py
lines 120-125): the bare word for the first variant (`i = 0`), and
`word(i+1)` for the later ones. -/
def headToken (w : Str) (i : Nat) : Str :=
  if i = 0 then w else w ++ '(' :: (decRep (i + 1) ++ [')'])

/-- One dictionary line: `print(head, phoneme_str, file=dict_file)` with
`phoneme_str = " ".join(phonemes).strip()` (train.py lines 119, 122, 125). -/
def entryLine (w : Str) (i : Nat) (ph : List Str) : Str :=
  headToken w i ++ ' ' :: trim (joinSp ph)

/-- The block of dictionary lines written for one resolved word: the
enumerated loop of train.py lines 118-125. -/
def writeEntry (w : Str) (vs : List (List Str)) : List Str :=
  vs.enum.map (fun p => entryLine w p.1 p.2)

/-- Dictionary-format serialization of a whole map, entry by entry, exactly
as the resolver of `train` writes the entries it finds. -/
def writeDictLines (m : Pron) : List Str :=
  (m.map (fun p => writeEntry p.1 p.2)).flatten

/-- Model of `line.startswith("<")` (train.py line 97). -/
def startsAngle : Str → Bool
  | '<' :: _ => true
  | _ => false

/-- Vocabulary extraction (train.py lines 93-98): strip each line of the
estimator's vocabulary file and add it to the vocabulary set unless it
starts with `<`.  The Python set is modelled as an insertion-ordered
duplicate-free list. -/
def vocabStep (vocab : List Str) (rawLine : Str) : List Str :=
  let line := trim rawLine
  if startsAngle line then vocab
  else if line ∈ vocab then vocab else vocab ++ [line]

def extractVocabulary (vocabLines : List Str) : List Str :=
  vocabLines.foldl vocabStep []

/-- The test `if not word_phonemes` (train.py line 111): true when the word
has no entry at all or an entry holding an empty list of variants. -/
def pronMissing (pron : Pron) (w : Str) : Bool :=
  match lookupWord pron w with
  | none => true
  | some vs => vs.isEmpty

/-- The word-resolution loop of `train` (train.py lines 106-125): returns
the dictionary lines written for the resolved words together with the
missing-word list, in vocabulary order. -/
def resolveStep (pron : Pron) (acc : List Str × List Str) (w : Str) :
    List Str × List Str :=
  match lookupWord pron w with
  | none => (acc.1, acc.2 ++ [w])
  | some vs =>
    if vs.isEmpty then (acc.1, acc.2 ++ [w])
    else (acc.1 ++ writeEntry w vs, acc.2)

def resolveWords (vocab : List Str) (pron : Pron) : List Str × List Str :=
  vocab.foldl (resolveStep pron) ([], [])

/-- Dictionary lines appended for the g2p guesses (train.py lines 148-153):
`print(guess_word, " ".join(guess_phonemes).strip())`, written both to the
dictionary scratch file and to the missing-words file when one is open. -/
def guessLines (guesses : List (Str × List Str)) : List Str :=
  guesses.map (fun g => g.1 ++ ' ' :: trim (joinSp g.2))

/-- The error kinds a run of `train` can raise.  `nameError` is the
`NameError` of line 62, where the count file's name is built from the
undefined name `language_model` (the parameter is `language_model_path`
and no binding of the name `language_model` exists in the module), so the
expression `str(language_model)` raises before anything is opened.  The
remaining kinds belong to the stages written below that point, which the
error kinds of the spec name: `estimationFailure` is the
`CalledProcessError` of `subprocess.check_call` (line 91),
`emptyVocabulary` the `AssertionError` of `assert vocabulary` (line 100),
`missingWordPronunciations` the exception of line 135 carrying the
missing-word list, and `g2pFailure` the `CalledProcessError` of
`subprocess.check_output` inside `guess_pronunciations` (line 207), which
propagates when the lazy generator is first consumed at line 148. -/
inductive TrainError where
  | nameError
  | estimationFailure
  | emptyVocabulary
  | missingWordPronunciations (words : List Str)
  | g2pFailure
  deriving DecidableEq

/-- Outcome of the external `estimate-ngram` invocation (train.py lines
75-91), treated as a black box: failure (non-zero exit), or success with
the language-model content and the lines of the vocabulary file it wrote. -/
inductive EstimatorResult where
  | failure
  | success (lmContent : Str) (vocabLines : List Str)

/-- Outcome of the external `phonetisaurus-apply` invocation (train.py
lines 187-217), treated as a black box: failure (non-zero exit), or success
with the (word, phonemes) pairs the generator yields. -/
inductive G2PResult where
  | failure
  | success (guesses : List (Str × List Str))

/-- Contents left at the three destination paths given to a run of `train`:
`none` means the path was never touched by the run; dictionary and
missing-words contents are lists of lines, the language model is opaque
content copied byte for byte. -/
structure Destinations where
  dictionaryDest : Option (List Str)
  languageModelDest : Option Str
  missingWordsDest : Option (List Str)
  deriving DecidableEq

/-- All destinations untouched: the state before a run of `train`. -/
def initialDests : Destinations := ⟨none, none, none⟩

/-- The publication step of `train` (train.py lines 163-172): the completed
dictionary scratch file is copied to `dictionary_path` and the completed
language-model scratch file to `language_model_path`. -/
def publish (d : Destinations) (dictLines : List Str) (lmContent : Str) :
    Except TrainError Unit × Destinations :=
  (Except.ok (),
    { d with dictionaryDest := some dictLines, languageModelDest := some lmContent })

/-- Model of `train` (train.py lines 34-172) as written.  Its first file
operation, line 62, builds the count file's name as
`str(language_model) + ".counts"`, and `language_model` is an undefined
name — the parameter is `language_model_path` and the module defines no
`language_model` — so evaluating the argument of `open` raises `NameError`
on every call, before any file is opened, before the external estimator is
invoked, and before any destination path is touched; the exception
propagates out of the scratch-file `with` blocks, which only clean up
their own temporary files.  No later stage of the function is reachable.
The parameters that would govern those stages (the pronunciation map,
whether `g2p_model` and `missing_words_path` were supplied, the outcomes
of the two external processes) are kept so that runs can be quantified
over; the result does not depend on them. -/
def train (_pron : Pron) (_hasG2PModel : Bool) (_hasMissingWordsPath : Bool)
    (_est : EstimatorResult) (_g2p : G2PResult) :
    Except TrainError Unit × Destinations :=
  (Except.error TrainError.nameError, initialDests)

/-- The pipeline of train.py lines 56-172 as it would execute if line 62
read `language_model_path` — the parameter that exists — instead of the
undefined name `language_model`: the evident intent of the code,
reconstructed stage by stage from the source.  The real `train` never
reaches any of these stages (see `train`); this definition exists so the
divergence between the claims and the code can be stated next to what the
written-but-unreachable stages would do.  `hasG2PModel` is whether
`g2p_model` was supplied and `hasMissingWordsPath` whether
`missing_words_path` was.  The stages: estimator failure aborts the run;
the vocabulary is extracted and `assert vocabulary` (line 100) aborts on
emptiness; the resolution loop produces the dictionary scratch lines and
the missing-word set; when a missing-words path is supplied, the file at
that destination is opened for writing — truncating it to empty — at line
130, before any failure check; a non-empty missing set without a g2p model
raises `MissingWordPronunciationsException` (line 135); otherwise the g2p
guesses are appended to the dictionary scratch lines and written to the
missing-words file (lines 148-153); finally the scratch dictionary and
language model are published (lines 163-172). -/
def trainLine62Patched (pron : Pron) (hasG2PModel : Bool)
    (hasMissingWordsPath : Bool) (est : EstimatorResult) (g2p : G2PResult) :
    Except TrainError Unit × Destinations :=
  match est with
  | .failure => (Except.error .estimationFailure, initialDests)
  | .success lmContent vocabLines =>
    let vocab := extractVocabulary vocabLines
    if vocab.isEmpty then (Except.error .emptyVocabulary, initialDests)
    else
      let res := resolveWords vocab pron
      let d0 : Destinations :=
        if hasMissingWordsPath then
          { initialDests with missingWordsDest := some [] }
        else initialDests
      if res.2.isEmpty then publish d0 res.1 lmContent
      else if hasG2PModel = false then
        (Except.error (.missingWordPronunciations res.2), d0)
      else
        match g2p with
        | .failure => (Except.error .g2pFailure, d0)
        | .success guesses =>
          let d1 : Destinations :=
            if hasMissingWordsPath then
              { d0 with missingWordsDest := some (guessLines guesses) }
            else d0
          publish d1 (res.1 ++ guessLines guesses) lmContent

/-- Python `print(*args, end=e, file=f)` writes the arguments separated by
single spaces, followed by `e`. -/
def pyPrint (args : List Str) (endStr : Str) : Str := joinSp args ++ endStr

/-- One line of the n-gram count file, as emitted by train.py lines 70-71:
`print(*ngram, file=count_file, end="")` followed by
`print("\t", count, file=count_file)`. -/
def countLine (ngram : List Str) (count : Nat) : Str :=
  pyPrint ngram [] ++ pyPrint [['\t'], decRep count] ['\n']

/-- The optional per-word transform applied to each n-gram before writing
(train.py lines 66-67). -/
def transformNgram (tf : Option (Str → Str)) (ngram : List Str) : List Str :=
  match tf with
  | none => ngram
  | some f => ngram.map f

/-- The COUNTING-stage serialization of the n-gram count corpus (train.py
lines 62-71), flattened over the per-intent grouping (the loop writes the
pairs of every intent into the single count file in order). -/
def serializeCounts (counts : List (List Str × Nat)) (tf : Option (Str → Str)) :
    Str :=
  (counts.map (fun p => countLine (transformNgram tf p.1) p.2)).flatten

/-- The map with every entry for `w` removed: the comparison point for
treating a word exactly like one absent from the map. -/
def removeWord (pron : Pron) (w : Str) : Pron :=
  pron.filter (fun p => p.1 != w)

/-- A word fit for the dictionary text format: non-empty, without
whitespace and without `(` (cf. the data-model constraints on words). -/
def goodWord (w : Str) : Prop :=
  w ≠ [] ∧ ∀ c ∈ w, isWsChar c = false ∧ c ≠ '('

/-- A pronunciation variant fit for the dictionary text format: a non-empty
list of phoneme symbols, each itself non-empty and free of whitespace. -/
def goodVariant (ph : List Str) : Prop :=
  ph ≠ [] ∧ ∀ t ∈ ph, t ≠ [] ∧ ∀ c ∈ t, isWsChar c = false

/-- An entry of a Pronunciation Map fit for serialization: a good word
mapped to a non-empty list of good variants. -/
def goodEntry (p : Str × List (List Str)) : Prop :=
  goodWord p.1 ∧ p.2 ≠ [] ∧ ∀ ph ∈ p.2, goodVariant ph

instance : DecidablePred goodWord := fun w => by
  unfold goodWord; infer_instance

instance : DecidablePred goodVariant := fun ph => by
  unfold goodVariant; infer_instance

instance : DecidablePred goodEntry := fun p => by
  unfold goodEntry; infer_instance

theorem isWsChar_of_isSepChar {c : Char} (h : isSepChar c = true) :
    isWsChar c = true := by
  simp only [isSepChar, Bool.or_eq_true, beq_iff_eq] at h
  rcases h with h | h <;> simp [isWsChar, h]

theorem isSepChar_eq_false {c : Char} (h : isWsChar c = false) :
    isSepChar c = false := by
  cases hs : isSepChar c with
  | false => rfl
  | true => rw [isWsChar_of_isSepChar hs] at h; exact absurd h (by simp)

theorem trimLeft_cons_of_not_ws {c : Char} (h : isWsChar c = false) (l : Str) :
    trimLeft (c :: l) = c :: l := by
  simp [trimLeft, List.dropWhile_cons, h]

theorem trimRight_snoc_of_not_ws {c : Char} (h : isWsChar c = false) (l : Str) :
    trimRight (l ++ [c]) = l ++ [c] := by
  induction l with
  | nil => simp [trimRight, h]
  | cons a l ih =>
    show trimRight (a :: (l ++ [c])) = a :: (l ++ [c])
    unfold trimRight
    rw [ih]
    cases l <;> simp

theorem trimRight_cons_shape (c : Char) (cs : Str) :
    trimRight (c :: cs) = [] ∨ ∃ r, trimRight (c :: cs) = c :: r := by
  simp only [trimRight]
  split
  · cases hw : isWsChar c with
    | true => left; simp [hw]
    | false => right; exact ⟨[], by simp [hw]⟩
  · right; exact ⟨_, rfl⟩

theorem trimLeft_head_not_ws :
    ∀ (l : Str) {c : Char} {cs : Str}, trimLeft l = c :: cs → isWsChar c = false := by
  intro l
  induction l with
  | nil => intro c cs h; simp [trimLeft] at h
  | cons a l ih =>
    intro c cs h
    rw [trimLeft, List.dropWhile_cons] at h
    by_cases hw : isWsChar a = true
    · rw [if_pos hw] at h; exact ih h
    · rw [if_neg hw] at h
      cases h
      simpa using hw

theorem trim_shape {l : Str} (h : trim l ≠ []) :
    ∃ c cs, trim l = c :: cs ∧ isWsChar c = false := by
  unfold trim at *
  cases hl : trimLeft l with
  | nil => rw [hl] at h; exact absurd rfl h
  | cons c cs =>
    have hc : isWsChar c = false := trimLeft_head_not_ws l hl
    rw [hl] at h
    rcases trimRight_cons_shape c cs with h0 | ⟨r, hr⟩
    · exact absurd h0 h
    · exact ⟨c, r, hr, hc⟩

theorem trim_eq_self_of_ends {c d : Char} (h1 : isWsChar c = false)
    (h2 : isWsChar d = false) (m : Str) :
    trim (c :: (m ++ [d])) = c :: (m ++ [d]) := by
  have hL : trimLeft (c :: (m ++ [d])) = c :: (m ++ [d]) :=
    trimLeft_cons_of_not_ws h1 _
  unfold trim
  rw [hL]
  have hshape : c :: (m ++ [d]) = (c :: m) ++ [d] := by simp
  rw [hshape, trimRight_snoc_of_not_ws h2]

theorem trim_singleton_of_not_ws {c : Char} (h : isWsChar c = false) :
    trim [c] = [c] := by
  unfold trim
  rw [trimLeft_cons_of_not_ws h]
  simpa using trimRight_snoc_of_not_ws h []

theorem tokenizeAux_token :
    ∀ (t : Str) (rest acc : Str), (∀ c ∈ t, isSepChar c = false) →
      tokenizeAux (t ++ rest) acc = tokenizeAux rest (t.reverse ++ acc) := by
  intro t
  induction t with
  | nil => intro rest acc _; simp
  | cons c t ih =>
    intro rest acc hg
    have hc : isSepChar c = false := hg c (by simp)
    show tokenizeAux (c :: (t ++ rest)) acc = _
    rw [tokenizeAux, if_neg (by simp [hc])]
    rw [ih rest (c :: acc) (fun x hx => hg x (by simp [hx]))]
    simp

theorem tokenizeAux_ne_nil :
    ∀ (s acc : Str), acc ≠ [] → tokenizeAux s acc ≠ [] := by
  intro s
  induction s with
  | nil => intro acc h; simp [tokenizeAux, h]
  | cons c cs ih =>
    intro acc h
    rw [tokenizeAux]
    by_cases hc : isSepChar c = true
    · rw [if_pos hc, if_neg h]; simp
    · rw [if_neg hc]; exact ih (c :: acc) (by simp)

theorem tokenize_single {t : Str} (h : t ≠ [])
    (hg : ∀ c ∈ t, isSepChar c = false) : tokenize t = [t] := by
  have := tokenizeAux_token t [] [] hg
  rw [List.append_nil] at this
  unfold tokenize
  rw [this, tokenizeAux, if_neg (by simpa using h)]
  simp

theorem tokenize_token_space {t : Str} (r : Str) (h : t ≠ [])
    (hg : ∀ c ∈ t, isSepChar c = false) :
    tokenize (t ++ ' ' :: r) = t :: tokenize r := by
  unfold tokenize
  rw [tokenizeAux_token t (' ' :: r) [] hg, List.append_nil, tokenizeAux,
    if_pos (by simp [isSepChar]), if_neg (by simpa using h)]
  simp

theorem tokenize_joinSp :
    ∀ (ph : List Str), (∀ t ∈ ph, t ≠ [] ∧ ∀ c ∈ t, isSepChar c = false) →
      tokenize (joinSp ph) = ph := by
  intro ph
  induction ph with
  | nil => intro _; simp [joinSp, tokenize, tokenizeAux]
  | cons t ts ih =>
    intro hg
    have ht := hg t (by simp)
    cases ts with
    | nil => exact tokenize_single ht.1 ht.2
    | cons t' ts' =>
      show tokenize (t ++ ' ' :: joinSp (t' :: ts')) = _
      rw [tokenize_token_space _ ht.1 ht.2,
        ih (fun x hx => hg x (by simp [hx]))]

theorem tokenize_ne_nil {c : Char} {cs : Str} (h : isSepChar c = false) :
    tokenize (c :: cs) ≠ [] := by
  unfold tokenize
  rw [tokenizeAux, if_neg (by simp [h])]
  exact tokenizeAux_ne_nil cs [c] (by simp)

theorem joinSp_cons₂ (t t' : Str) (ts : List Str) :
    joinSp (t :: t' :: ts) = t ++ ' ' :: joinSp (t' :: ts) := rfl

theorem joinSp_head_shape :
    ∀ (ph : List Str), ph ≠ [] → (∀ t ∈ ph, t ≠ [] ∧ ∀ c ∈ t, isWsChar c = false) →
      ∃ e r, joinSp ph = e :: r ∧ isWsChar e = false := by
  intro ph hne hg
  cases ph with
  | nil => exact absurd rfl hne
  | cons t ts =>
    have ht := hg t (by simp)
    cases t with
    | nil => exact absurd rfl ht.1
    | cons e t' =>
      have he : isWsChar e = false := ht.2 e (by simp)
      cases ts with
      | nil => exact ⟨e, t', rfl, he⟩
      | cons t₂ ts₂ =>
        exact ⟨e, t' ++ ' ' :: joinSp (t₂ :: ts₂), by simp [joinSp_cons₂], he⟩

theorem joinSp_snoc_shape :
    ∀ (ph : List Str), ph ≠ [] → (∀ t ∈ ph, t ≠ [] ∧ ∀ c ∈ t, isWsChar c = false) →
      ∃ q d, joinSp ph = q ++ [d] ∧ isWsChar d = false := by
  intro ph
  induction ph with
  | nil => intro hne _; exact absurd rfl hne
  | cons t ts ih =>
    intro _ hg
    cases ts with
    | nil =>
      have ht := hg t (by simp)
      rcases List.eq_nil_or_concat t with h0 | ⟨q, d, hqd⟩
      · exact absurd h0 ht.1
      · exact ⟨q, d, by simpa [joinSp] using hqd,
          ht.2 d (by simp [hqd])⟩
    | cons t₂ ts₂ =>
      rcases ih (by simp) (fun x hx => hg x (by simp [hx])) with ⟨q, d, hq, hd⟩
      refine ⟨t ++ ' ' :: q, d, ?_, hd⟩
      rw [joinSp_cons₂, hq]
      simp

theorem baseWord_eq_self {w : Str} (h : '(' ∉ w) : baseWord w = w := by
  induction w with
  | nil => rfl
  | cons c cs ih =>
    have hc : c ≠ '(' := fun he => h (by simp [he])
    show List.takeWhile _ (c :: cs) = c :: cs
    rw [List.takeWhile_cons, if_pos (by simpa using hc)]
    exact congrArg (c :: ·) (ih (fun hm => h (by simp [hm])))

theorem baseWord_append_paren {w : Str} (rest : Str) (h : '(' ∉ w) :
    baseWord (w ++ '(' :: rest) = w := by
  induction w with
  | nil => simp [baseWord, List.takeWhile_cons]
  | cons c cs ih =>
    have hc : c ≠ '(' := fun he => h (by simp [he])
    show List.takeWhile _ (c :: (cs ++ '(' :: rest)) = c :: cs
    rw [List.takeWhile_cons, if_pos (by simpa using hc)]
    exact congrArg (c :: ·) (ih (fun hm => h (by simp [hm])))

theorem baseWord_ne_self_of_mem {w : Str} (h : '(' ∈ w) : baseWord w ≠ w := by
  induction w with
  | nil => simp at h
  | cons c cs ih =>
    by_cases hc : c = '('
    · subst hc
      show List.takeWhile _ ('(' :: cs) ≠ _
      rw [List.takeWhile_cons]
      simp
    · have hm : '(' ∈ cs := by
        rcases List.mem_cons.mp h with h1 | h1
        · exact absurd h1.symm hc
        · exact h1
      show List.takeWhile _ (c :: cs) ≠ _
      rw [List.takeWhile_cons, if_pos (by simpa using hc)]
      intro he
      injection he with h1 h2
      exact ih hm h2

theorem baseWord_paren_head (rest : Str) : baseWord ('(' :: rest) = [] := by
  show List.takeWhile _ ('(' :: rest) = []
  rw [List.takeWhile_cons]
  simp

theorem digitChar_good (n : Nat) :
    isWsChar (digitChar n) = false ∧ digitChar n ≠ '(' := by
  have h : n % 10 < 10 := Nat.mod_lt _ (by norm_num)
  have hall : ∀ m < 10,
      isWsChar (Char.ofNat (48 + m)) = false ∧ Char.ofNat (48 + m) ≠ '(' := by
    decide
  exact hall _ h

theorem decRepAux_chars :
    ∀ (fuel n : Nat), ∀ c ∈ decRepAux fuel n, isWsChar c = false ∧ c ≠ '(' := by
  intro fuel
  induction fuel with
  | zero => intro n c hc; simp [decRepAux] at hc
  | succ fuel ih =>
    intro n c hc
    rw [decRepAux] at hc
    by_cases h10 : n < 10
    · rw [if_pos h10] at hc
      simp only [List.mem_singleton] at hc
      subst hc
      exact digitChar_good n
    · rw [if_neg h10] at hc
      rcases List.mem_append.mp hc with h1 | h1
      · exact ih _ c h1
      · simp only [List.mem_singleton] at h1
        subst h1
        exact digitChar_good _

theorem decRep_chars {n : Nat} {c : Char} (hc : c ∈ decRep n) :
    isWsChar c = false ∧ c ≠ '(' := decRepAux_chars _ _ c hc

theorem hasKey_eq_false_iff {wd : Pron} {w : Str} :
    hasKey wd w = false ↔ ∀ p ∈ wd, p.1 ≠ w := by
  unfold hasKey
  rw [← Bool.not_eq_true, List.any_eq_true]
  constructor
  · intro h p hp he
    exact h ⟨p, hp, by simp [he]⟩
  · rintro h ⟨p, hp, he⟩
    exact h p hp (by simpa using he)

theorem addEntry_fresh {wd : Pron} {w : Str} (ps : List Str)
    (h : hasKey wd w = false) : addEntry wd w ps = wd ++ [(w, [ps])] := by
  rw [addEntry, if_neg (by simp [h])]

theorem map_keep_of_ne {wd : Pron} {w : Str} (ps : List Str)
    (h : ∀ p ∈ wd, p.1 ≠ w) :
    wd.map (fun p => if p.1 == w then (p.1, p.2 ++ [ps]) else p) = wd := by
  induction wd with
  | nil => rfl
  | cons q wd ih =>
    have hq : ¬((q.1 == w) = true) := by simpa using h q (by simp)
    simp only [List.map_cons, if_neg hq]
    exact congrArg (q :: ·) (ih (fun p hp => h p (by simp [hp])))

theorem addEntry_snoc_key {wd : Pron} {w : Str} (acc : List (List Str))
    (ps : List Str) (h : ∀ p ∈ wd, p.1 ≠ w) :
    addEntry (wd ++ [(w, acc)]) w ps = wd ++ [(w, acc ++ [ps])] := by
  have hk : hasKey (wd ++ [(w, acc)]) w = true := by
    simp [hasKey, List.any_append]
  rw [addEntry, if_pos hk, List.map_append, map_keep_of_ne ps h]
  simp

theorem foldl_addEntry_snoc {wd : Pron} {w : Str} (h : ∀ p ∈ wd, p.1 ≠ w) :
    ∀ (vs : List (List Str)) (acc : List (List Str)),
      List.foldl (fun a ph => addEntry a w ph) (wd ++ [(w, acc)]) vs =
        wd ++ [(w, acc ++ vs)] := by
  intro vs
  induction vs with
  | nil => intro acc; simp
  | cons v vs ih =>
    intro acc
    simp only [List.foldl_cons]
    rw [addEntry_snoc_key acc v h, ih]
    simp

theorem foldl_addEntry_start {wd : Pron} {w : Str} (h : ∀ p ∈ wd, p.1 ≠ w)
    (v : List Str) (vs : List (List Str)) :
    List.foldl (fun a ph => addEntry a w ph) wd (v :: vs) =
      wd ++ [(w, v :: vs)] := by
  simp only [List.foldl_cons]
  rw [addEntry_fresh v (hasKey_eq_false_iff.mpr h), foldl_addEntry_snoc h vs [v]]
  simp

theorem foldl_congr_mem {α β : Type} {f g : β → α → β} :
    ∀ {l : List α} {b : β}, (∀ b' a, a ∈ l → f b' a = g b' a) →
      l.foldl f b = l.foldl g b := by
  intro l
  induction l with
  | nil => intro b _; rfl
  | cons a l ih =>
    intro b h
    simp only [List.foldl_cons]
    rw [h b a (by simp)]
    exact ih (fun b' x hx => h b' x (by simp [hx]))

theorem trim_eq_self_of_shapes {x : Str} {e d : Char} {r q : Str}
    (h1 : x = e :: r) (h2 : x = q ++ [d]) (he : isWsChar e = false)
    (hd : isWsChar d = false) : trim x = x := by
  subst h2
  cases q with
  | nil =>
    simpa using trim_singleton_of_not_ws hd
  | cons qc q' =>
    rw [List.cons_append] at h1
    injection h1 with hqc _
    subst hqc
    simpa using trim_eq_self_of_ends he hd q'

theorem snd_mem_of_mem_enum {α : Type} {p : Nat × α} {l : List α}
    (h : p ∈ l.enum) : p.2 ∈ l := by
  obtain ⟨i, x⟩ := p
  rcases List.mem_enumFrom h with ⟨_, hlt, hx⟩
  show x ∈ l
  rw [hx]
  exact List.getElem_mem _

theorem readDictStep_entryLine (wd : Pron) {w : Str} (i : Nat) {ph : List Str}
    (hw : goodWord w) (hph : goodVariant ph) :
    readDictStep wd (entryLine w i ph) = addEntry wd w ph := by
  obtain ⟨hwne, hwc⟩ := hw
  obtain ⟨hphne, hpht⟩ := hph
  have hsepph : ∀ t ∈ ph, t ≠ [] ∧ ∀ c ∈ t, isSepChar c = false :=
    fun t ht =>
      ⟨(hpht t ht).1, fun c hc => isSepChar_eq_false ((hpht t ht).2 c hc)⟩
  rcases joinSp_head_shape ph hphne hpht with ⟨e, r, her, he⟩
  rcases joinSp_snoc_shape ph hphne hpht with ⟨q, d, hqd, hd⟩
  have htr : trim (joinSp ph) = joinSp ph :=
    trim_eq_self_of_shapes her hqd he hd
  obtain ⟨wc, wrest, hwshape⟩ : ∃ wc wrest, w = wc :: wrest := by
    cases w with
    | nil => exact absurd rfl hwne
    | cons a l => exact ⟨a, l, rfl⟩
  have hwcns : isWsChar wc = false := (hwc wc (by simp [hwshape])).1
  have hparen : '(' ∉ w := fun hm => (hwc '(' hm).2 rfl
  have hhsep : ∀ c ∈ headToken w i, isSepChar c = false := by
    intro c hc
    unfold headToken at hc
    by_cases hi : i = 0
    · rw [if_pos hi] at hc
      exact isSepChar_eq_false ((hwc c hc).1)
    · rw [if_neg hi] at hc
      rcases List.mem_append.mp hc with h1 | h1
      · exact isSepChar_eq_false ((hwc c h1).1)
      · rcases List.mem_cons.mp h1 with h2 | h2
        · subst h2; decide
        · rcases List.mem_append.mp h2 with h3 | h3
          · exact isSepChar_eq_false (decRep_chars h3).1
          · simp only [List.mem_singleton] at h3; subst h3; decide
  have hhne : headToken w i ≠ [] := by
    unfold headToken
    by_cases hi : i = 0
    · rw [if_pos hi]; exact hwne
    · rw [if_neg hi]; simp [hwshape]
  obtain ⟨hrest, hhs⟩ : ∃ hrest, headToken w i = wc :: hrest := by
    unfold headToken
    by_cases hi : i = 0
    · rw [if_pos hi]; exact ⟨wrest, hwshape⟩
    · rw [if_neg hi, hwshape]
      exact ⟨wrest ++ '(' :: (decRep (i + 1) ++ [')']), by simp⟩
  have hbase : baseWord (headToken w i) = w := by
    unfold headToken
    by_cases hi : i = 0
    · rw [if_pos hi]; exact baseWord_eq_self hparen
    · rw [if_neg hi]; exact baseWord_append_paren _ hparen
  have hline : entryLine w i ph = headToken w i ++ ' ' :: joinSp ph := by
    rw [entryLine, htr]
  have hlshape1 : entryLine w i ph = wc :: (hrest ++ ' ' :: joinSp ph) := by
    rw [hline, hhs]; simp
  have hlshape2 : entryLine w i ph = (headToken w i ++ ' ' :: q) ++ [d] := by
    rw [hline, hqd]; simp
  have hltrim : trim (entryLine w i ph) = entryLine w i ph :=
    trim_eq_self_of_shapes hlshape1 hlshape2 hwcns hd
  have hlne : entryLine w i ph ≠ [] := by rw [hlshape1]; simp
  have htoks : tokenize (entryLine w i ph) = headToken w i :: ph := by
    rw [hline, tokenize_token_space _ hhne hhsep, tokenize_joinSp ph hsepph]
  show (if trim (entryLine w i ph) = [] then wd
        else
          match tokenize (trim (entryLine w i ph)) with
          | [] => wd
          | wh :: ps => addEntry wd (baseWord wh) ps) = addEntry wd w ph
  rw [hltrim, if_neg hlne, htoks]
  show addEntry wd (baseWord (headToken w i)) ph = addEntry wd w ph
  rw [hbase]

theorem foldl_readDict_writeEntry {w : Str} {vs : List (List Str)} (wd : Pron)
    (hfresh : ∀ p ∈ wd, p.1 ≠ w) (hw : goodWord w) (hvs : vs ≠ [])
    (hgood : ∀ ph ∈ vs, goodVariant ph) :
    List.foldl readDictStep wd (writeEntry w vs) = wd ++ [(w, vs)] := by
  rw [writeEntry, List.foldl_map]
  have hcong :
      List.foldl (fun a p => readDictStep a (entryLine w p.1 p.2)) wd vs.enum =
        List.foldl (fun a p => addEntry a w p.2) wd vs.enum :=
    foldl_congr_mem (fun b p hp =>
      readDictStep_entryLine b p.1 ⟨hw.1, hw.2⟩
        (hgood p.2 (snd_mem_of_mem_enum hp)))
  rw [hcong]
  have h2 :
      List.foldl (fun a p => addEntry a w p.2) wd vs.enum =
        List.foldl (fun a ph => addEntry a w ph) wd (vs.enum.map Prod.snd) := by
    rw [List.foldl_map]
  rw [h2, List.enum_map_snd]
  cases vs with
  | nil => exact absurd rfl hvs
  | cons v vs' => exact foldl_addEntry_start hfresh v vs'

theorem readDict_writeDict_aux :
    ∀ (m wd : Pron), (∀ p ∈ m, goodEntry p) → (m.map Prod.fst).Nodup →
      (∀ p ∈ m, ∀ q ∈ wd, q.1 ≠ p.1) →
      List.foldl readDictStep wd (writeDictLines m) = wd ++ m := by
  intro m
  induction m with
  | nil => intro wd _ _ _; simp [writeDictLines]
  | cons p m ih =>
    intro wd hgood hnodup hdisj
    obtain ⟨w, vs⟩ := p
    have hp := hgood (w, vs) (by simp)
    have hnodup' := hnodup
    rw [List.map_cons, List.nodup_cons] at hnodup'
    simp only [writeDictLines, List.map_cons, List.flatten_cons]
    rw [List.foldl_append]
    rw [foldl_readDict_writeEntry wd
      (fun q hq => hdisj (w, vs) (by simp) q hq) hp.1 hp.2.1 hp.2.2]
    have hih := ih (wd ++ [(w, vs)]) (fun q hq => hgood q (by simp [hq]))
      hnodup'.2 ?_
    · rw [show List.foldl readDictStep (wd ++ [(w, vs)])
          (m.map (fun p => writeEntry p.1 p.2)).flatten =
          List.foldl readDictStep (wd ++ [(w, vs)]) (writeDictLines m) from rfl,
        hih]
      simp
    · intro p' hp' q hq
      rcases List.mem_append.mp hq with h1 | h1
      · exact hdisj p' (by simp [hp']) q h1
      · simp only [List.mem_singleton] at h1
        subst h1
        intro he
        exact hnodup'.1 (he ▸ List.mem_map_of_mem Prod.fst hp')

theorem readDict_writeDict {m : Pron} (hgood : ∀ p ∈ m, goodEntry p)
    (hnodup : (m.map Prod.fst).Nodup) :
    read_dict (writeDictLines m) [] = m := by
  have h := readDict_writeDict_aux m [] hgood hnodup
    (by intro p _ q hq; simp at hq)
  simpa [read_dict] using h

theorem readDictStep_blank {wd : Pron} {l : Str} (h : trim l = []) :
    readDictStep wd l = wd := by
  simp [readDictStep, h]

theorem readDictStep_nonblank {l : Str} (h : trim l ≠ []) :
    ∃ w0 ps, tokenize (trim l) = w0 :: ps ∧
      ∀ wd, readDictStep wd l = addEntry wd (baseWord w0) ps := by
  rcases trim_shape h with ⟨c, cs, hcs, hc⟩
  have hne : tokenize (trim l) ≠ [] := by
    rw [hcs]
    exact tokenize_ne_nil (isSepChar_eq_false hc)
  cases htok : tokenize (trim l) with
  | nil => exact absurd htok hne
  | cons w0 ps =>
    refine ⟨w0, ps, rfl, fun wd => ?_⟩
    show (if trim l = [] then wd
          else
            match tokenize (trim l) with
            | [] => wd
            | wh :: ps' => addEntry wd (baseWord wh) ps') = _
    rw [if_neg h, htok]

theorem keys_addEntry {wd : Pron} {w : Str} (ps : List Str)
    (h : hasKey wd w = true) :
    (addEntry wd w ps).map Prod.fst = wd.map Prod.fst := by
  rw [addEntry, if_pos h, List.map_map]
  apply List.map_congr_left
  intro p _
  simp only [Function.comp]
  split <;> rfl

theorem nodupKeys_addEntry {wd : Pron} {w : Str} (ps : List Str)
    (h : (wd.map Prod.fst).Nodup) :
    ((addEntry wd w ps).map Prod.fst).Nodup := by
  cases hk : hasKey wd w with
  | true => rw [keys_addEntry ps hk]; exact h
  | false =>
    rw [addEntry_fresh ps hk, List.map_append]
    have hw : w ∉ wd.map Prod.fst := by
      intro hm
      rcases List.mem_map.mp hm with ⟨p, hp, hpe⟩
      exact hasKey_eq_false_iff.mp hk p hp hpe
    simp only [List.map_cons, List.map_nil]
    rw [List.nodup_append]
    exact ⟨h, List.nodup_singleton w, by simpa using hw⟩

theorem entryCount_append (wd wd' : Pron) :
    entryCount (wd ++ wd') = entryCount wd + entryCount wd' := by
  simp [entryCount, List.sum_append]

theorem entryCount_update {w : Str} (ps : List Str) :
    ∀ (wd : Pron), (wd.map Prod.fst).Nodup → hasKey wd w = true →
      entryCount (wd.map (fun p => if p.1 == w then (p.1, p.2 ++ [ps]) else p)) =
        entryCount wd + 1 := by
  intro wd
  induction wd with
  | nil => intro _ hk; simp [hasKey] at hk
  | cons q wd ih =>
    intro h hk
    rw [List.map_cons, List.nodup_cons] at h
    have hk2 : ((q.1 == w) || hasKey wd w) = true := by
      unfold hasKey at hk ⊢
      rw [List.any_cons] at hk
      exact hk
    by_cases hq : (q.1 == w) = true
    · have hqw : q.1 = w := by simpa using hq
      have hrest : ∀ p ∈ wd, p.1 ≠ w := by
        intro p hp he
        apply h.1
        rw [hqw]
        exact he ▸ List.mem_map_of_mem Prod.fst hp
      rw [List.map_cons, if_pos hq, map_keep_of_ne ps hrest]
      simp only [entryCount, List.map_cons, List.sum_cons, List.length_append,
        List.length_cons, List.length_nil]
      omega
    · have hk3 : hasKey wd w = true := by
        rcases Bool.or_eq_true_iff.mp hk2 with h1 | h1
        · exact absurd h1 hq
        · exact h1
      rw [List.map_cons, if_neg hq]
      have hwd := ih h.2 hk3
      simp only [entryCount, List.map_cons, List.sum_cons] at hwd ⊢
      omega

theorem entryCount_addEntry {wd : Pron} {w : Str} (ps : List Str)
    (h : (wd.map Prod.fst).Nodup) :
    entryCount (addEntry wd w ps) = entryCount wd + 1 := by
  cases hk : hasKey wd w with
  | false => rw [addEntry_fresh ps hk, entryCount_append]; simp [entryCount]
  | true =>
    rw [addEntry, if_pos hk]
    exact entryCount_update ps wd h hk

theorem nodupKeys_readDict :
    ∀ (lines : List Str) (wd : Pron), (wd.map Prod.fst).Nodup →
      ((read_dict lines wd).map Prod.fst).Nodup := by
  intro lines
  induction lines with
  | nil => intro wd h; exact h
  | cons l lines ih =>
    intro wd h
    show ((read_dict lines (readDictStep wd l)).map Prod.fst).Nodup
    by_cases hb : trim l = []
    · rw [readDictStep_blank hb]; exact ih wd h
    · rcases readDictStep_nonblank hb with ⟨w0, ps, _, hstep⟩
      rw [hstep wd]
      exact ih _ (nodupKeys_addEntry ps h)

theorem entryCount_readDict :
    ∀ (lines : List Str) (wd : Pron), (wd.map Prod.fst).Nodup →
      entryCount (read_dict lines wd) =
        entryCount wd + (lines.filter (fun l => !(trim l).isEmpty)).length := by
  intro lines
  induction lines with
  | nil => intro wd _; simp [read_dict]
  | cons l lines ih =>
    intro wd h
    show entryCount (read_dict lines (readDictStep wd l)) = _
    by_cases hb : trim l = []
    · rw [readDictStep_blank hb, ih wd h]
      simp [List.filter_cons, hb]
    · rcases readDictStep_nonblank hb with ⟨w0, ps, _, hstep⟩
      rw [hstep wd, ih _ (nodupKeys_addEntry ps h), entryCount_addEntry ps h]
      have : (!(trim l).isEmpty) = true := by
        simp [List.isEmpty_iff, hb]
      simp [List.filter_cons, this]
      omega

theorem addEntry_values_ne_nil {wd : Pron} {w : Str} (ps : List Str)
    (h : ∀ p ∈ wd, p.2 ≠ []) : ∀ p ∈ addEntry wd w ps, p.2 ≠ [] := by
  intro p hp
  unfold addEntry at hp
  by_cases hk : hasKey wd w = true
  · rw [if_pos hk] at hp
    rcases List.mem_map.mp hp with ⟨q, hq, he⟩
    subst he
    by_cases hqw : (q.1 == w) = true
    · rw [if_pos hqw]
      simp
    · rw [if_neg hqw]
      exact h q hq
  · rw [if_neg hk] at hp
    rcases List.mem_append.mp hp with h1 | h1
    · exact h p h1
    · simp only [List.mem_singleton] at h1
      subst h1
      simp

theorem readDict_values_ne_nil :
    ∀ (lines : List Str) (wd : Pron), (∀ p ∈ wd, p.2 ≠ []) →
      ∀ p ∈ read_dict lines wd, p.2 ≠ [] := by
  intro lines
  induction lines with
  | nil => intro wd h; exact h
  | cons l lines ih =>
    intro wd h
    show ∀ p ∈ read_dict lines (readDictStep wd l), p.2 ≠ []
    by_cases hb : trim l = []
    · rw [readDictStep_blank hb]; exact ih wd h
    · rcases readDictStep_nonblank hb with ⟨w0, ps, _, hstep⟩
      rw [hstep wd]
      exact ih _ (addEntry_values_ne_nil ps h)

theorem vocabStep_mono {acc : List Str} {x : Str} (h : x ∈ acc) (l : Str) :
    x ∈ vocabStep acc l := by
  show x ∈ (if startsAngle (trim l) then acc
            else if trim l ∈ acc then acc else acc ++ [trim l])
  by_cases hs : startsAngle (trim l) = true
  · rw [if_pos hs]; exact h
  · rw [if_neg hs]
    by_cases hm : trim l ∈ acc
    · rw [if_pos hm]; exact h
    · rw [if_neg hm]; exact List.mem_append_left _ h

theorem vocabStep_blank_mem {acc : List Str} {l : Str} (h : trim l = []) :
    [] ∈ vocabStep acc l := by
  show ([] : Str) ∈ (if startsAngle (trim l) then acc
            else if trim l ∈ acc then acc else acc ++ [trim l])
  rw [h, if_neg (by simp [startsAngle])]
  by_cases hm : ([] : Str) ∈ acc
  · rw [if_pos hm]; exact hm
  · rw [if_neg hm]; simp

theorem foldl_vocabStep_mono :
    ∀ (ls : List Str) {acc : List Str} {x : Str}, x ∈ acc →
      x ∈ ls.foldl vocabStep acc := by
  intro ls
  induction ls with
  | nil => intro acc x h; exact h
  | cons l ls ih => intro acc x h; exact ih (vocabStep_mono h l)

theorem foldl_vocabStep_blank :
    ∀ (ls : List Str) (acc : List Str),
      ((∃ l ∈ ls, trim l = []) ∨ [] ∈ acc) → [] ∈ ls.foldl vocabStep acc := by
  intro ls
  induction ls with
  | nil =>
    intro acc h
    rcases h with ⟨l, hl, _⟩ | h
    · simp at hl
    · exact h
  | cons l ls ih =>
    intro acc h
    show ([] : Str) ∈ ls.foldl vocabStep (vocabStep acc l)
    rcases h with ⟨l', hl', hb⟩ | h
    · rcases List.mem_cons.mp hl' with he | hm
      · subst he
        exact foldl_vocabStep_mono ls (vocabStep_blank_mem hb)
      · exact ih _ (Or.inl ⟨l', hm, hb⟩)
    · exact ih _ (Or.inr (vocabStep_mono h l))

theorem foldl_resolve_missing (pron : Pron) :
    ∀ (vocab : List Str) (acc : List Str × List Str),
      (vocab.foldl (resolveStep pron) acc).2 =
        acc.2 ++ vocab.filter (pronMissing pron) := by
  intro vocab
  induction vocab with
  | nil => intro acc; simp
  | cons w vocab ih =>
    intro acc
    rw [List.foldl_cons, ih, List.filter_cons]
    have hstep : (resolveStep pron acc w).2 =
        acc.2 ++ (if pronMissing pron w then [w] else []) := by
      unfold resolveStep pronMissing
      cases hlk : lookupWord pron w with
      | none => simp
      | some vs => cases hvs : vs.isEmpty <;> simp [hvs]
    rw [hstep]
    by_cases hm : pronMissing pron w = true
    · rw [if_pos hm, if_pos hm]; simp
    · rw [if_neg hm, if_neg hm]; simp

theorem resolveWords_missing (vocab : List Str) (pron : Pron) :
    (resolveWords vocab pron).2 = vocab.filter (pronMissing pron) := by
  have h := foldl_resolve_missing pron vocab ([], [])
  simpa [resolveWords] using h

theorem lookupWord_some_mem {pron : Pron} {w : Str} {vs : List (List Str)}
    (h : lookupWord pron w = some vs) : ∃ p ∈ pron, p.2 = vs := by
  unfold lookupWord at h
  rcases Option.map_eq_some'.mp h with ⟨p, hp, he⟩
  exact ⟨p, List.mem_of_find?_eq_some hp, he⟩

theorem pronMissing_iff_lookup_none {pron : Pron}
    (hinv : ∀ p ∈ pron, p.2 ≠ []) (w : Str) :
    pronMissing pron w = true ↔ lookupWord pron w = none := by
  unfold pronMissing
  cases hlk : lookupWord pron w with
  | none => simp
  | some vs =>
    rcases lookupWord_some_mem hlk with ⟨p, hp, he⟩
    have hvs : vs ≠ [] := he ▸ hinv p hp
    simp [List.isEmpty_iff, hvs]

theorem lookupWord_removeWord_self (pron : Pron) (w : Str) :
    lookupWord (removeWord pron w) w = none := by
  induction pron with
  | nil => rfl
  | cons q pron ih =>
    show lookupWord (List.filter (fun p => p.1 != w) (q :: pron)) w = none
    rw [List.filter_cons]
    by_cases hq : (q.1 != w) = true
    · rw [if_pos hq]
      unfold lookupWord
      rw [List.find?_cons_of_neg _ (by simpa using hq)]
      exact ih
    · rw [if_neg hq]
      exact ih

theorem lookupWord_removeWord_ne {pron : Pron} {w w' : Str} (h : w' ≠ w) :
    lookupWord (removeWord pron w) w' = lookupWord pron w' := by
  induction pron with
  | nil => rfl
  | cons q pron ih =>
    show lookupWord (List.filter (fun p => p.1 != w) (q :: pron)) w' = _
    rw [List.filter_cons]
    by_cases hq : (q.1 != w) = true
    · rw [if_pos hq]
      by_cases hq' : (q.1 == w') = true
      · unfold lookupWord
        simp only [List.find?_cons, hq']
      · have hf : (q.1 == w') = false :=
          beq_eq_false_iff_ne.mpr (by simpa using hq')
        unfold lookupWord
        simp only [List.find?_cons, hf]
        exact ih
    · rw [if_neg hq]
      have hq1 : q.1 = w := by
        have h2 := (not_iff_not.mpr bne_iff_ne).mp hq
        simpa using h2
      have hq'f : (q.1 == w') = false := by
        rw [beq_eq_false_iff_ne, hq1]
        exact fun he => h he.symm
      have hR : lookupWord (q :: pron) w' = lookupWord pron w' := by
        unfold lookupWord
        simp only [List.find?_cons, hq'f]
      rw [hR]
      exact ih

theorem resolveWords_removeWord {pron : Pron} {w : Str}
    (hw : lookupWord pron w = some []) (vocab : List Str) :
    resolveWords vocab pron = resolveWords vocab (removeWord pron w) := by
  unfold resolveWords
  apply foldl_congr_mem
  intro b u _
  unfold resolveStep
  by_cases he : u = w
  · subst he
    rw [hw, lookupWord_removeWord_self]
    simp
  · rw [lookupWord_removeWord_ne he]

theorem isEmpty_false_of_ne_nil {α : Type} {l : List α} (h : l ≠ []) :
    l.isEmpty = false := by
  cases he : l.isEmpty
  · rfl
  · exact absurd (List.isEmpty_iff.mp he) h

theorem patched_empty_vocab {vls : List Str} (pron : Pron) (g mf : Bool)
    (lm : Str) (g2p : G2PResult) (h : extractVocabulary vls = []) :
    trainLine62Patched pron g mf (EstimatorResult.success lm vls) g2p =
      (Except.error TrainError.emptyVocabulary, initialDests) := by
  simp [trainLine62Patched, h]

theorem patched_missing_no_g2p {pron : Pron} {mf : Bool} {lm : Str}
    {vls : List Str} (g2p : G2PResult) (hv : extractVocabulary vls ≠ [])
    (hm : (resolveWords (extractVocabulary vls) pron).2 ≠ []) :
    trainLine62Patched pron false mf (EstimatorResult.success lm vls) g2p =
      (Except.error (TrainError.missingWordPronunciations
          ((resolveWords (extractVocabulary vls) pron).2)),
        if mf then { initialDests with missingWordsDest := some [] }
        else initialDests) := by
  simp [trainLine62Patched, isEmpty_false_of_ne_nil hv,
    isEmpty_false_of_ne_nil hm]

/-- The missing-word contract of the written-but-unreachable resolution
stage (train.py lines 106-135), stated against the line-62-patched
pipeline: with a map satisfying the Pronunciation Map invariant and at
least one extracted vocabulary word absent from it, and no g2p model, the
stage raises the missing-word exception carrying exactly the unresolved
set. -/
theorem trainPatched_missing_spec (pron : Pron) (mf : Bool) (lm : Str)
    (vls : List Str) (g2p : G2PResult) (hinv : ∀ p ∈ pron, p.2 ≠ [])
    (hw : ∃ w ∈ extractVocabulary vls, lookupWord pron w = none) :
    ∃ ws,
      (trainLine62Patched pron false mf (EstimatorResult.success lm vls)
            g2p).1 =
          Except.error (TrainError.missingWordPronunciations ws) ∧
        ∀ w, w ∈ ws ↔ (w ∈ extractVocabulary vls ∧
          lookupWord pron w = none) := by
  obtain ⟨w0, hw0v, hw0n⟩ := hw
  have hv : extractVocabulary vls ≠ [] := List.ne_nil_of_mem hw0v
  have hmchar : (resolveWords (extractVocabulary vls) pron).2 =
      (extractVocabulary vls).filter (pronMissing pron) :=
    resolveWords_missing _ _
  have hw0m : w0 ∈ (resolveWords (extractVocabulary vls) pron).2 := by
    rw [hmchar]
    exact List.mem_filter.mpr
      ⟨hw0v, (pronMissing_iff_lookup_none hinv w0).mpr hw0n⟩
  have hm : (resolveWords (extractVocabulary vls) pron).2 ≠ [] :=
    List.ne_nil_of_mem hw0m
  refine ⟨(resolveWords (extractVocabulary vls) pron).2, ?_, ?_⟩
  · rw [patched_missing_no_g2p g2p hv hm]
  · intro w
    rw [hmchar, List.mem_filter]
    constructor
    · rintro ⟨hmem, hmiss⟩
      exact ⟨hmem, (pronMissing_iff_lookup_none hinv w).mp hmiss⟩
    · rintro ⟨hmem, hnone⟩
      exact ⟨hmem, (pronMissing_iff_lookup_none hinv w).mpr hnone⟩

/-- The written-but-unreachable stages also violate the scratch-then-publish
discipline for the missing-words path: in the line-62-patched pipeline a
run failing with the missing-word exception has already truncated the
missing-words destination to an empty file (train.py line 130 opens the
destination before the check of lines 132-135). -/
theorem trainPatched_missing_truncates :
    (trainLine62Patched [] false true (EstimatorResult.success [] [['w']])
        G2PResult.failure).1 =
      Except.error (TrainError.missingWordPronunciations [['w']]) ∧
    (trainLine62Patched [] false true (EstimatorResult.success [] [['w']])
        G2PResult.failure).2.missingWordsDest = some [] := by
  constructor <;> rfl

theorem readDictStep_tokens (wd : Pron) {hd : Str} {ps : List Str}
    (h1 : hd ≠ []) (h2 : ∀ c ∈ hd, isWsChar c = false)
    (hps : ∀ t ∈ ps, t ≠ [] ∧ ∀ c ∈ t, isWsChar c = false) :
    readDictStep wd (joinSp (hd :: ps)) = addEntry wd (baseWord hd) ps := by
  cases ps with
  | nil =>
    have hsep : ∀ c ∈ hd, isSepChar c = false :=
      fun c hc => isSepChar_eq_false (h2 c hc)
    obtain ⟨e, r, hshape⟩ : ∃ e r, hd = e :: r := by
      cases hd with
      | nil => exact absurd rfl h1
      | cons a l => exact ⟨a, l, rfl⟩
    rcases List.eq_nil_or_concat hd with h0 | ⟨q, d, hqd⟩
    · exact absurd h0 h1
    · rw [List.concat_eq_append] at hqd
      have hdws : isWsChar d = false := h2 d (by simp [hqd])
      have hews : isWsChar e = false := h2 e (by simp [hshape])
      have htr : trim hd = hd := trim_eq_self_of_shapes hshape hqd hews hdws
      show (if trim (joinSp [hd]) = [] then wd
            else
              match tokenize (trim (joinSp [hd])) with
              | [] => wd
              | wh :: ps' => addEntry wd (baseWord wh) ps') = _
      rw [show joinSp [hd] = hd from rfl, htr, if_neg h1,
        tokenize_single h1 hsep]
  | cons p0 ps' =>
    have hpsne : (p0 :: ps') ≠ [] := by simp
    have hsep : ∀ c ∈ hd, isSepChar c = false :=
      fun c hc => isSepChar_eq_false (h2 c hc)
    have hsepps : ∀ t ∈ p0 :: ps', t ≠ [] ∧ ∀ c ∈ t, isSepChar c = false :=
      fun t ht =>
        ⟨(hps t ht).1, fun c hc => isSepChar_eq_false ((hps t ht).2 c hc)⟩
    rcases joinSp_head_shape _ hpsne hps with ⟨e, r, her, he⟩
    rcases joinSp_snoc_shape _ hpsne hps with ⟨q, d, hqd, hdws⟩
    obtain ⟨hc0, hrest, hhs⟩ : ∃ hc0 hrest, hd = hc0 :: hrest := by
      cases hd with
      | nil => exact absurd rfl h1
      | cons a l => exact ⟨a, l, rfl⟩
    have hc0ws : isWsChar hc0 = false := h2 hc0 (by simp [hhs])
    have hline : joinSp (hd :: p0 :: ps') = hd ++ ' ' :: joinSp (p0 :: ps') :=
      joinSp_cons₂ hd p0 ps'
    have hshape1 : joinSp (hd :: p0 :: ps') =
        hc0 :: (hrest ++ ' ' :: joinSp (p0 :: ps')) := by
      rw [hline, hhs]; simp
    have hshape2 : joinSp (hd :: p0 :: ps') = (hd ++ ' ' :: q) ++ [d] := by
      rw [hline, hqd]; simp
    have htr : trim (joinSp (hd :: p0 :: ps')) = joinSp (hd :: p0 :: ps') :=
      trim_eq_self_of_shapes hshape1 hshape2 hc0ws hdws
    have hlne : joinSp (hd :: p0 :: ps') ≠ [] := by rw [hshape1]; simp
    have htoks : tokenize (joinSp (hd :: p0 :: ps')) = hd :: p0 :: ps' := by
      rw [hline, tokenize_token_space _ h1 hsep, tokenize_joinSp _ hsepps]
    show (if trim (joinSp (hd :: p0 :: ps')) = [] then wd
          else
            match tokenize (trim (joinSp (hd :: p0 :: ps'))) with
            | [] => wd
            | wh :: ps'' => addEntry wd (baseWord wh) ps'') = _
    rw [htr, if_neg hlne, htoks]

/-- Claim C1, counterexample: the round-trip claim fails as stated.  The
map sending the word `w` to the single variant whose single phoneme symbol
is the three-character string `A B` satisfies every invariant the claim
lists (non-empty variant list, non-empty variant, a word without whitespace
or a parenthesis), yet writing it in dictionary format (`w A B`) and
reading it back yields the variant `[A, B]` of two phoneme symbols, not the
original variant. -/
theorem claim_C1_counterexample :
    (∀ p ∈ ([(['w'], [[['A', ' ', 'B']]])] : Pron),
        p.2 ≠ [] ∧ (∀ ph ∈ p.2, ph ≠ []) ∧
          ∀ c ∈ p.1, isWsChar c = false ∧ c ≠ '(') ∧
    lookupWord
        (read_dict (writeDictLines [(['w'], [[['A', ' ', 'B']]])]) [])
        ['w'] ≠
      lookupWord [(['w'], [[['A', ' ', 'B']]])] ['w'] := by
  decide

/-- Claim C1 (amended): for every Pronunciation Map with pairwise distinct
keys whose entries are good for serialization — non-empty variant lists,
non-empty variants, words non-empty and free of whitespace and `(`, and
additionally (what the counterexample forces) every phoneme symbol
non-empty and free of whitespace — writing its entries in dictionary format
as train's resolver does and reading the lines back with `read_dict` yields
the same key list and, for every word, the same ordered list of variants. -/
theorem claim_C1_amended (m : Pron) (hkeys : (m.map Prod.fst).Nodup)
    (hgood : ∀ p ∈ m, goodEntry p) :
    (read_dict (writeDictLines m) []).map Prod.fst = m.map Prod.fst ∧
    ∀ w, lookupWord (read_dict (writeDictLines m) []) w = lookupWord m w := by
  rw [readDict_writeDict hgood hkeys]
  exact ⟨rfl, fun w => rfl⟩

/-- Claim C1, witness: the amended round trip at a concrete two-variant
map. -/
theorem claim_C1_witness :
    ((([(['a', 'b'], [[['A'], ['B']], [['C']]])] : Pron).map Prod.fst).Nodup ∧
      ∀ p ∈ ([(['a', 'b'], [[['A'], ['B']], [['C']]])] : Pron), goodEntry p) ∧
    ((read_dict (writeDictLines [(['a', 'b'], [[['A'], ['B']], [['C']]])])
          []).map Prod.fst =
        ([(['a', 'b'], [[['A'], ['B']], [['C']]])] : Pron).map Prod.fst ∧
      ∀ w,
        lookupWord
            (read_dict (writeDictLines [(['a', 'b'], [[['A'], ['B']], [['C']]])])
              []) w =
          lookupWord [(['a', 'b'], [[['A'], ['B']], [['C']]])] w) :=
  ⟨⟨by decide, by decide⟩, claim_C1_amended _ (by decide) (by decide)⟩

/-- Claim C4, counterexample: when `(` is the first character of the head
token the claim says the key is the full head token, but the code keys the
entry under the empty string.  Reading the single line `(a B` yields no
entry under the full head token `(a`; the entry sits under the empty
key. -/
theorem claim_C4_counterexample :
    lookupWord (read_dict [['(', 'a', ' ', 'B']] []) ['(', 'a'] = none ∧
    lookupWord (read_dict [['(', 'a', ' ', 'B']] []) [] =
      some [[['B']]] := by
  decide

/-- Claim C4 (amended): `read_dict` keys every entry under everything
before the first `(` of the head token (`word.split("(")[0]`): for every
line built from a whitespace-free head token and phoneme tokens, the entry
is keyed under `baseWord` of the head; hence a head token `word(k)` is
keyed under `word` and never under `word(k)` itself (the key differs from
any head token containing `(`); and — correcting the claim — when `(` is
the first character of the head token the key is the empty string, not the
full head token. -/
theorem claim_C4_amended (hd : Str) (ps : List Str) (h1 : hd ≠ [])
    (h2 : ∀ c ∈ hd, isWsChar c = false)
    (hps : ∀ t ∈ ps, t ≠ [] ∧ ∀ c ∈ t, isWsChar c = false) :
    read_dict [joinSp (hd :: ps)] [] = [(baseWord hd, [ps])] ∧
    ('(' ∈ hd → baseWord hd ≠ hd) ∧
    (∀ rest, hd = '(' :: rest → baseWord hd = []) := by
  refine ⟨?_, fun hmem => baseWord_ne_self_of_mem hmem,
    fun rest hrest => by rw [hrest]; exact baseWord_paren_head rest⟩
  show List.foldl readDictStep [] [joinSp (hd :: ps)] = _
  rw [List.foldl_cons, List.foldl_nil, readDictStep_tokens [] h1 h2 hps,
    addEntry_fresh ps (by rfl)]
  rfl

/-- Claim C4, witness: the amended statement at the head token `w(2)` with
one phoneme token `P`: the entry lands under the base word `w`. -/
theorem claim_C4_witness :
    ((['w', '(', '2', ')'] : Str) ≠ [] ∧
      (∀ c ∈ (['w', '(', '2', ')'] : Str), isWsChar c = false) ∧
      (∀ t ∈ [(['P'] : Str)], t ≠ [] ∧ ∀ c ∈ t, isWsChar c = false)) ∧
    (read_dict [joinSp (['w', '(', '2', ')'] :: [['P']])] [] =
        [(baseWord ['w', '(', '2', ')'], [[['P']]])] ∧
      ('(' ∈ (['w', '(', '2', ')'] : Str) →
        baseWord ['w', '(', '2', ')'] ≠ ['w', '(', '2', ')']) ∧
      (∀ rest, (['w', '(', '2', ')'] : Str) = '(' :: rest →
        baseWord ['w', '(', '2', ')'] = [])) :=
  ⟨⟨by decide, by decide, by decide⟩,
    claim_C4_amended ['w', '(', '2', ')'] [['P']] (by decide) (by decide)
      (by decide)⟩

/-- Claim C7, counterexample: one well-formed line `a B` (so N = 1)
followed by one malformed line `x` (a bare head token with no phoneme, not
a valid `WORD PHONEME...` entry) does not yield exactly N = 1 parsed
entries: the malformed line is not skipped, and the reader holds 2
entries. -/
theorem claim_C7_counterexample :
    ¬ entryCount (read_dict [['a', ' ', 'B'], ['x']] []) = 1 := by
  decide

/-- Claim C7 (amended): `read_dict` is total — no line raises out of it,
matching the per-line `except` of the source — but for string lines no
line is ever skipped as malformed either: every non-blank line, including
a malformed single-token line, contributes exactly one parsed entry, so an
input of N well-formed lines and one malformed line yields N + 1 entries,
not N. -/
theorem claim_C7_amended (lines : List Str) :
    entryCount (read_dict lines []) =
      (lines.filter (fun l => !(trim l).isEmpty)).length := by
  have h := entryCount_readDict lines [] (by simp)
  simpa [entryCount] using h

/-- Claim C8, counterexample: the claim that every variant produced by
`read_dict` is a non-empty sequence of phoneme symbols fails exactly on a
single-token line: reading the line `x` maps the word `x` to the empty
variant. -/
theorem claim_C8_counterexample :
    ¬ (∀ p ∈ read_dict [['x']] [], ∀ ph ∈ p.2, ph ≠ []) := by
  decide

/-- Claim C8 (amended): half of the invariant holds — starting from a map
in which no word is mapped to an empty sequence of variants, `read_dict`
never maps a word key to an empty sequence of variants (every processed
line appends one variant).  The other half fails (see the counterexample):
a variant may itself be the empty sequence, produced by a single-token
line. -/
theorem claim_C8_amended (lines : List Str) (wd : Pron)
    (h : ∀ p ∈ wd, p.2 ≠ []) : ∀ p ∈ read_dict lines wd, p.2 ≠ [] :=
  readDict_values_ne_nil lines wd h

/-- Claim C8, witness: the amended invariant at a concrete map and
input. -/
theorem claim_C8_witness :
    (∀ p ∈ ([(['a'], [[['P']]])] : Pron), p.2 ≠ []) ∧
    (∀ p ∈ read_dict [['b', ' ', 'Q']] [(['a'], [[['P']]])], p.2 ≠ []) :=
  ⟨by decide, claim_C8_amended [['b', ' ', 'Q']] [(['a'], [[['P']]])]
    (by decide)⟩

/-- Claim C2 is a code bug: the claim describes the evident intent of the
resolution stage — train.py lines 106-135 and the exception class of lines
20-28 exist exactly to implement it — but the code cannot exhibit it.  At
the failing input below (a map defining `a` but not `l`, an estimator
vocabulary listing both, no g2p model) the claim requires
`MissingWordPronunciationsException` carrying exactly the unresolved set;
the real `train` instead raises `NameError` at line 62 (the undefined name
`language_model`) on every call, before the resolution loop can run, and
so never raises `MissingWordPronunciationsException` at all (second
conjunct).  With line 62 patched to the intended `language_model_path`,
the downstream stages satisfy the claim exactly (third conjunct). -/
theorem claim_C2 :
    (train [(['a'], [[['P']]])] false false
        (EstimatorResult.success [] [['a'], ['l']]) G2PResult.failure).1 =
      Except.error TrainError.nameError ∧
    (∀ (pron : Pron) (g mf : Bool) (est : EstimatorResult) (g2p : G2PResult)
        (ws : List Str),
      (train pron g mf est g2p).1 ≠
        Except.error (TrainError.missingWordPronunciations ws)) ∧
    (∃ ws,
      (trainLine62Patched [(['a'], [[['P']]])] false false
            (EstimatorResult.success [] [['a'], ['l']]) G2PResult.failure).1 =
          Except.error (TrainError.missingWordPronunciations ws) ∧
        ∀ w, w ∈ ws ↔ (w ∈ extractVocabulary [['a'], ['l']] ∧
          lookupWord [(['a'], [[['P']]])] w = none)) := by
  refine ⟨rfl, ?_, ?_⟩
  · intro pron g mf est g2p ws
    simp [train]
  · exact trainPatched_missing_spec [(['a'], [[['P']]])] false []
      [['a'], ['l']] G2PResult.failure (by decide) (by decide)

/-- Claim C3: every run of `train` that terminates with an error leaves no
partially-written artifact at any destination path given to the run — the
dictionary path, the language-model path and the optional missing-words
path are all untouched.  The confirmation is degenerate: every run of the
source terminates with the `NameError` of line 62 before any file is
opened or written, so no destination is ever touched, and — vacuously —
destinations are only ever written by publishing a completed scratch file,
since they are never written at all.  The written-but-unreachable later
stages would not keep this discipline for the missing-words path (see
`trainPatched_missing_truncates`), but no run of the code reaches them. -/
theorem claim_C3 (pron : Pron) (g mf : Bool) (est : EstimatorResult)
    (g2p : G2PResult) (e : TrainError)
    (_h : (train pron g mf est g2p).1 = Except.error e) :
    (train pron g mf est g2p).2.dictionaryDest = none ∧
    (train pron g mf est g2p).2.languageModelDest = none ∧
    (train pron g mf est g2p).2.missingWordsDest = none :=
  ⟨rfl, rfl, rfl⟩

/-- Claim C3, witness: a concrete failing run — every run fails, at line
62 — with a missing-words path configured leaves all three destinations
untouched. -/
theorem claim_C3_witness :
    (train [] false true (EstimatorResult.success [] [['w']])
        G2PResult.failure).1 = Except.error TrainError.nameError ∧
    ((train [] false true (EstimatorResult.success [] [['w']])
          G2PResult.failure).2.dictionaryDest = none ∧
      (train [] false true (EstimatorResult.success [] [['w']])
          G2PResult.failure).2.languageModelDest = none ∧
      (train [] false true (EstimatorResult.success [] [['w']])
          G2PResult.failure).2.missingWordsDest = none) :=
  ⟨rfl, claim_C3 [] false true (EstimatorResult.success [] [['w']])
    G2PResult.failure TrainError.nameError rfl⟩

/-- Claim C5, counterexample: the COUNTING stage does not put the count
immediately after the tab.  For the one-word n-gram `a` with count 1 the
emitted line is `a<TAB><SPACE>1` and not `a<TAB>1`: `print("\t", count)`
separates its two arguments with a space. -/
theorem claim_C5_counterexample :
    countLine [['a']] 1 = ['a', '\t', ' ', '1', '\n'] ∧
    countLine [['a']] 1 ≠ ['a', '\t', '1', '\n'] := by
  decide

/-- Claim C5 (amended): the COUNTING stage serializes each (n-gram, count)
pair as one line consisting of the transformed n-gram words separated by
single spaces, followed by one tab character, then one space (inserted by
`print` between its arguments), then the integer count and the newline. -/
theorem claim_C5_amended (counts : List (List Str × Nat))
    (tf : Option (Str → Str)) :
    serializeCounts counts tf =
      (counts.map (fun p =>
        joinSp (transformNgram tf p.1) ++
          '\t' :: ' ' :: (decRep p.2 ++ ['\n']))).flatten := by
  unfold serializeCounts
  congr 1
  apply List.map_congr_left
  intro p _
  unfold countLine pyPrint
  rw [show joinSp [['\t'], decRep p.2] = '\t' :: ' ' :: decRep p.2 from rfl]
  simp

/-- Claim C6 is a code bug: the claim matches the evident intent — the
code's own `assert vocabulary` (train.py line 100) exists exactly to stop
an empty-vocabulary run with a distinct error before the dictionary stage
— but the code cannot exhibit it: the `NameError` of line 62 aborts every
call before the estimator is invoked or the assertion is reached, so
`train` never fails with the empty-vocabulary error (third conjunct).  At
the failing input below the vocabulary file holds only the reserved symbol
`<s>`, so the extraction of lines 93-98 yields the empty vocabulary (first
conjunct); the claim requires the empty-vocabulary failure, the code
raises `NameError` (second conjunct).  With line 62 patched, the run fails
with exactly the empty-vocabulary error and no destination is touched
(fourth conjunct). -/
theorem claim_C6 :
    extractVocabulary [['<', 's', '>']] = [] ∧
    (train [] false false (EstimatorResult.success [] [['<', 's', '>']])
        G2PResult.failure).1 = Except.error TrainError.nameError ∧
    (∀ (pron : Pron) (g mf : Bool) (est : EstimatorResult) (g2p : G2PResult),
      (train pron g mf est g2p).1 ≠
        Except.error TrainError.emptyVocabulary) ∧
    trainLine62Patched [] false false
        (EstimatorResult.success [] [['<', 's', '>']]) G2PResult.failure =
      (Except.error TrainError.emptyVocabulary, initialDests) := by
  refine ⟨by decide, rfl, ?_, ?_⟩
  · intro pron g mf est g2p
    simp [train]
  · exact patched_empty_vocab [] false false [] G2PResult.failure (by decide)

/-- Claim C9: when the estimator's vocabulary file contains a blank or
whitespace-only line, the stripped line is the empty string, it does not
start with `<`, and the vocabulary-extraction loop adds the empty string to
the Vocabulary; in particular the extracted Vocabulary is non-empty even if
the file holds no actual word. -/
theorem claim_C9 (vls : List Str) (h : ∃ l ∈ vls, trim l = []) :
    [] ∈ extractVocabulary vls ∧ extractVocabulary vls ≠ [] := by
  have hm : ([] : Str) ∈ extractVocabulary vls :=
    foldl_vocabStep_blank vls [] (Or.inl h)
  exact ⟨hm, List.ne_nil_of_mem hm⟩

/-- Claim C9, witness: a vocabulary file consisting of one space-only
line. -/
theorem claim_C9_witness :
    (∃ l ∈ [([' '] : Str)], trim l = []) ∧
    ([] ∈ extractVocabulary [[' ']] ∧ extractVocabulary [[' ']] ≠ []) :=
  ⟨by decide, claim_C9 [[' ']] (by decide)⟩

/-- Claim C10: in the resolution step, a vocabulary word mapped to an empty
list of variants is treated exactly like a word absent from the map: the
whole resolution result (dictionary lines and missing-word list) is the
same as with the entry removed, and whenever the word is in the vocabulary
it lands in the missing-word set, so no dictionary line is written for it
at that stage. -/
theorem claim_C10 (vocab : List Str) (pron : Pron) (w : Str)
    (h : lookupWord pron w = some []) :
    resolveWords vocab pron = resolveWords vocab (removeWord pron w) ∧
    (w ∈ vocab → w ∈ (resolveWords vocab pron).2) := by
  refine ⟨resolveWords_removeWord h vocab, fun hv => ?_⟩
  rw [resolveWords_missing]
  exact List.mem_filter.mpr ⟨hv, by simp [pronMissing, h]⟩

/-- Claim C10, witness: the vocabulary word `w` whose entry is the empty
variant list is resolved exactly as if absent and is reported missing. -/
theorem claim_C10_witness :
    lookupWord [((['w'] : Str), ([] : List (List Str)))] ['w'] = some [] ∧
    (resolveWords [['w']] [(['w'], [])] =
        resolveWords [['w']] (removeWord [(['w'], [])] ['w']) ∧
      (['w'] ∈ [(['w'] : Str)] →
        ['w'] ∈ (resolveWords [['w']] [(['w'], [])]).2)) :=
  ⟨by decide, claim_C10 [['w']] [(['w'], [])] ['w'] (by decide)⟩
